import Mathlib

/-
Verification development for the caosde repository: a Monte-Carlo simulator
for a coupled stock / stochastic-volatility / relaxation-variable model.

Sources embedded here:
  * src/src/stocksim/stocksim.c  (MEX worker stockPath and mexFunction)
  * src/src/NumWrapper.m         (pure-MATLAB path simulator)
  * src/src/euler_weak.m         (weak-convergence measurement script)

Real arithmetic (C doubles / MATLAB doubles) is modelled over the rationals.
The square roots appearing in the sources are handled as follows: in the
MEX simulator sqrt(Dt) is an abstract parameter (its numeric value is
irrelevant to every theorem below); in euler_weak.m the fine step is
dtex = 0.0001, whose square root is exactly 1/100, a rational.
-/

/- Rounding as performed by the C library function lround: round to the
nearest integer, ties away from zero.  (For nonnegative arguments this
agrees with Mathlib round, which rounds ties up.) -/
def lround (q : ℚ) : ℤ :=
  if 0 ≤ q then round q else -(round (-q))

/- The C code assigns long values to mwSize (an unsigned 64-bit type in the
MATLAB C API); the conversion wraps modulo 2^64. -/
def toMwSize (z : ℤ) : ℕ :=
  (z % (2 : ℤ) ^ 64).toNat

/- Signature of the per-step scheme functions: arguments are
(state_prev, coupled_prev, drift-or-volvol parameter, Dt, Wiener increment),
exactly the argument lists of stocksim.c's function pointers and of
NumWrapper.m's anonymous functions. -/
abbrev StepFn := ℚ → ℚ → ℚ → ℚ → ℚ → ℚ

/-- Modelled from the spec: euler_stock lives in numerical.c, which is not in
the repository; the formula follows spec section 4.2 and coincides with the
inline Euler stock update of euler_weak.m (line 56). -/
def euler_stock (s v mu Dt dw : ℚ) : ℚ :=
  s + mu * s * Dt + v * s * dw

/-- Modelled from the spec: euler_vol lives in numerical.c, which is not in
the repository; the formula follows spec section 4.2 and coincides with the
inline Euler volatility update of euler_weak.m (line 57). -/
def euler_vol (v x p Dt dw : ℚ) : ℚ :=
  v - (v - x) * Dt + p * v * dw

/-- Modelled from the spec: milstein_stock lives in numerical.c, which is not
in the repository; the formula follows spec section 4.2 and coincides with
the inline Milstein stock update of euler_weak.m (lines 32-33). -/
def milstein_stock (s v mu Dt dw : ℚ) : ℚ :=
  s + mu * s * Dt + v * s * dw + (1/2) * v * v * s * (dw * dw - Dt)

/-- Modelled from the spec: milstein_vol lives in numerical.c, which is not
in the repository; the formula follows spec section 4.2 and coincides with
the inline Milstein volatility update of euler_weak.m (lines 34-35). -/
def milstein_vol (v x p Dt dw : ℚ) : ℚ :=
  v - (v - x) * Dt + p * v * dw + (1/2) * p * p * v * (dw * dw - Dt)

/- The fourth-order Runge-Kutta update of the relaxation variable, translated
from stocksim.c stockPath (lines 90-102): vol_prev is frozen across the
substep. -/
def rk4Next (v x Dt alpha : ℚ) : ℚ :=
  let k1 := 1 / alpha * (v - x)
  let k2 := 1 / alpha * (v + (1/2) * Dt * k1 - x)
  let k3 := 1 / alpha * (v + (1/2) * Dt * k2 - x)
  let k4 := 1 / alpha * (v + Dt * k3 - x)
  x + Dt / 6 * (k1 + 2 * k2 + 2 * k3 + k4)

/- ------------------------------------------------------------------ -/
/- The MEX worker routine stockPath (stocksim.c lines 37-109).

The C routine writes three flat column-major buffers through one running
index shared by all samples and steps, and advances the two RNG streams one
gaussian draw per stream per inner step.  The state below carries that
running index, the number of draws consumed so far from each stream, and
the three buffers (mxCreateDoubleMatrix zero-initializes, hence the all-zero
initial buffers). -/

structure SimState where
  idx : ℕ
  ctr : ℕ
  bS : ℕ → ℚ
  bV : ℕ → ℚ
  bX : ℕ → ℚ

section Machine

variable (fS fV : StepFn) (rs rv : ℕ → ℚ) (sdt mu p alpha Dt S0 sigma0 xi0 : ℚ)

/- One iteration of the inner loop (j = 1 .. N-1) of stockPath: draw one
gaussian from each stream, scale by sqrt(Dt) (the parameter sdt), advance
stock and volatility via the dispatched scheme and the relaxation variable
via RK4, all reading the previous position index-1, then advance index. -/
def innerStep (st : SimState) : SimState :=
  let phiS := rs st.ctr * sdt
  let phiV := rv st.ctr * sdt
  let sPrev := st.bS (st.idx - 1)
  let vPrev := st.bV (st.idx - 1)
  let xPrev := st.bX (st.idx - 1)
  { idx := st.idx + 1
    ctr := st.ctr + 1
    bS := Function.update st.bS st.idx (fS sPrev vPrev mu Dt phiS)
    bV := Function.update st.bV st.idx (fV vPrev xPrev p Dt phiV)
    bX := Function.update st.bX st.idx (rk4Next vPrev xPrev Dt alpha) }

/- Writing the initial values of one sample (stocksim.c lines 70-78). -/
def initSample (st : SimState) : SimState :=
  { idx := st.idx + 1
    ctr := st.ctr
    bS := Function.update st.bS st.idx S0
    bV := Function.update st.bV st.idx sigma0
    bX := Function.update st.bX st.idx xi0 }

/- One iteration of the outer loop over samples: write the initial values,
then run N-1 inner steps. -/
def oneSample (N : ℕ) (st : SimState) : SimState :=
  (innerStep fS fV rs rv sdt mu p alpha Dt)^[N - 1]
    (initSample S0 sigma0 xi0 st)

/- The whole worker routine: iterate over all samples starting from index 0,
draw counter 0, and zeroed buffers. -/
def stockPath (samples N : ℕ) : SimState :=
  (oneSample fS fV rs rv sdt mu p alpha Dt S0 sigma0 xi0 N)^[samples]
    ⟨0, 0, fun _ => 0, fun _ => 0, fun _ => 0⟩

/- The per-sample recurrence that stockPath implements, as a direct
recursion: step 0 is the initial triple, step n+1 applies the dispatched
scheme to stock and volatility and RK4 to the relaxation variable, feeding
the n-th Wiener increments.  (dW n and dW1 n are already scaled by
sqrt(Dt).) -/
def pathRec (dW dW1 : ℕ → ℚ) (s0 v0 x0 : ℚ) : ℕ → ℚ × ℚ × ℚ
  | 0 => (s0, v0, x0)
  | n + 1 =>
    let prev := pathRec dW dW1 s0 v0 x0 n
    (fS prev.1 prev.2.1 mu Dt (dW n),
     fV prev.2.1 prev.2.2 p Dt (dW1 n),
     rk4Next prev.2.1 prev.2.2 Dt alpha)

end Machine

/- ------------------------------------------------------------------ -/
/- The MEX gateway mexFunction (stocksim.c lines 112-183).

The host-boundary argument count and mxIsDouble / mxIsClass type checks are
out of scope (spec section 1); the configuration below is already typed.
The remaining gateway behaviour is modelled in the exact source order:
  1. if !(alpha > 0) raise a configuration error           (line 139-140)
  2. N = lround(T/Dt); samples = lround(samples_in)        (lines 144-145)
  3. allocate the three N x samples output matrices        (lines 147-150)
  4. resolve the method name with strncmp against the
     names euler, milstein, rk (prefix comparison), else
     raise a configuration error                           (lines 153-161)
  5. allocate two mt19937 generators and seed them with
     randstate and randstate+1                             (lines 164-173)
  6. run stockPath                                         (lines 176-179)
An event trace records allocations and generator creation/seeding so that
ordering claims can be stated.  The gaussian streams of the gsl library are
modelled by an abstract family gauss : seed -> draw index -> rational, and
sqrt by an abstract function sq; the rk scheme step functions live in
numerical.c (absent from the repository) and are parameters. -/

structure SimConfig where
  seed : ℚ
  samples : ℚ
  Dt : ℚ
  sigma0 : ℚ
  S0 : ℚ
  xi0 : ℚ
  mu : ℚ
  p : ℚ
  alpha : ℚ
  T : ℚ
  method : String

inductive NumMethod where
  | euler
  | milstein
  | rk
deriving DecidableEq

inductive MexErr where
  | alphaErr
  | methodErr
deriving DecidableEq

inductive MexEvent where
  | alloc (rows cols : ℕ)
  | rngAlloc
  | rngSeed (seed : ℚ)
deriving DecidableEq

structure MexOut where
  rows : ℕ
  cols : ℕ
  bufS : ℕ → ℚ
  bufV : ℕ → ℚ
  bufX : ℕ → ℚ

def eulerName : String := "euler"

def milsteinName : String := "milstein"

def rkName : String := "rk"

/- strncmp(s, pat, strlen(pat)) == 0 holds exactly when pat is a prefix of
s; modelled on the character lists underlying the strings. -/
def strPre (pat s : String) : Bool :=
  List.isPrefixOf pat.data s.data

/- The method-name resolution of mexFunction lines 153-161, in source
order. -/
def parseMethod (s : String) : Option NumMethod :=
  if strPre eulerName s then some NumMethod.euler
  else if strPre milsteinName s then some NumMethod.milstein
  else if strPre rkName s then some NumMethod.rk
  else none

/- The function-pointer dispatch of stockPath lines 53-65.  The rk pair is
a parameter: rk_stock and rk_vol are declared in numerical.h but their
definitions are not in the repository. -/
def dispatch (rkS rkV : StepFn) : NumMethod → StepFn × StepFn
  | NumMethod.euler => (euler_stock, euler_vol)
  | NumMethod.milstein => (milstein_stock, milstein_vol)
  | NumMethod.rk => (rkS, rkV)

def mexFunction (rkS rkV : StepFn) (gauss : ℚ → ℕ → ℚ) (sq : ℚ → ℚ)
    (cfg : SimConfig) : List MexEvent × Except MexErr MexOut :=
  if 0 < cfg.alpha then
    let N := toMwSize (lround (cfg.T / cfg.Dt))
    let samplesN := toMwSize (lround cfg.samples)
    let evAlloc := [MexEvent.alloc N samplesN, MexEvent.alloc N samplesN,
      MexEvent.alloc N samplesN]
    match parseMethod cfg.method with
    | none => (evAlloc, Except.error MexErr.methodErr)
    | some m =>
      let fp := dispatch rkS rkV m
      let st := stockPath fp.1 fp.2 (gauss cfg.seed) (gauss (cfg.seed + 1))
        (sq cfg.Dt) cfg.mu cfg.p cfg.alpha cfg.Dt cfg.S0 cfg.sigma0 cfg.xi0
        samplesN N
      (evAlloc ++ [MexEvent.rngAlloc, MexEvent.rngAlloc,
         MexEvent.rngSeed cfg.seed, MexEvent.rngSeed (cfg.seed + 1)],
       Except.ok ⟨N, samplesN, st.bS, st.bV, st.bX⟩)
  else ([], Except.error MexErr.alphaErr)

def exceptOk : Except MexErr MexOut → Bool
  | Except.ok _ => true
  | Except.error _ => false

def okDims : Except MexErr MexOut → Option (ℕ × ℕ)
  | Except.ok o => some (o.rows, o.cols)
  | Except.error _ => none

/- ------------------------------------------------------------------ -/
/- NumWrapper.m: the pure-MATLAB path simulator.

NumWrapper sets N = T / Dt with no rounding (line 9).  Its matrices are
samples x N, one-indexed; they are modelled as functions on (row, column)
pairs together with the allocated extents.  The loop body (lines 55-75)
writes, for sample i and column j in 2..N: the volatility via the
dispatched scheme, the relaxation variable via RK4 written with Dt/2
coefficients, and the stock via the dispatched scheme, all reading column
j-1.  phiS and phiV are the per-sample increment families, already scaled
by sqrt(Dt) as in lines 50-51. -/

def nwN (T Dt : ℚ) : ℚ := T / Dt

structure NWMats where
  rows : ℕ
  cols : ℕ
  stockM : ℕ × ℕ → ℚ
  volM : ℕ × ℕ → ℚ
  xiM : ℕ × ℕ → ℚ

/- zeros(samples, N) followed by the column-1 initial assignments of
NumWrapper.m lines 30-43. -/
def nwInit (samples N : ℕ) (S0 sigma0 xi0 : ℚ) : NWMats where
  rows := samples
  cols := N
  stockM := fun c => if c.2 = 1 ∧ 1 ≤ c.1 ∧ c.1 ≤ samples then S0 else 0
  volM := fun c => if c.2 = 1 ∧ 1 ≤ c.1 ∧ c.1 ≤ samples then sigma0 else 0
  xiM := fun c => if c.2 = 1 ∧ 1 ≤ c.1 ∧ c.1 ≤ samples then xi0 else 0

/- The RK4 update as written in NumWrapper.m lines 64-69 (Dt / 2 where
stocksim.c writes 0.5 * Dt). -/
def nwRk4 (volt xit Dt alpha : ℚ) : ℚ :=
  let k1 := 1 / alpha * (volt - xit)
  let k2 := 1 / alpha * (volt + Dt / 2 * k1 - xit)
  let k3 := 1 / alpha * (volt + Dt / 2 * k2 - xit)
  let k4 := 1 / alpha * (volt + Dt * k3 - xit)
  xit + Dt / 6 * (k1 + 2 * k2 + 2 * k3 + k4)

/- One iteration of the inner loop of NumWrapper.m (lines 55-75) at cell
ij = (sample, column): volatility is written first, then the relaxation
variable from the pre-loop reads volt/xit, then the stock, which reads the
volatility matrix after the volatility write (at column j-1, which that
write does not touch for j >= 2). -/
def nwBody (fS fV : StepFn) (phiS phiV : ℕ → ℕ → ℚ) (mu p alpha Dt : ℚ)
    (M : NWMats) (ij : ℕ × ℕ) : NWMats :=
  let i := ij.1
  let j := ij.2
  let volt := M.volM (i, j - 1)
  let xit := M.xiM (i, j - 1)
  let volM1 := Function.update M.volM (i, j) (fV volt xit p Dt (phiV i (j - 1)))
  let xiM1 := Function.update M.xiM (i, j) (nwRk4 volt xit Dt alpha)
  let stockM1 := Function.update M.stockM (i, j)
    (fS (M.stockM (i, j - 1)) (volM1 (i, j - 1)) mu Dt (phiS i (j - 1)))
  { M with stockM := stockM1, volM := volM1, xiM := xiM1 }

/- The loop ranges of NumWrapper.m: i = 1..samples, j = 2..N. -/
def nwPairs (samples N : ℕ) : List (ℕ × ℕ) :=
  (List.range samples).flatMap
    (fun i0 => (List.range (N - 1)).map (fun j0 => (i0 + 1, j0 + 2)))

def nwRun (fS fV : StepFn) (phiS phiV : ℕ → ℕ → ℚ) (mu p alpha Dt : ℚ)
    (samples N : ℕ) (S0 sigma0 xi0 : ℚ) : NWMats :=
  List.foldl (nwBody fS fV phiS phiV mu p alpha Dt)
    (nwInit samples N S0 sigma0 xi0) (nwPairs samples N)

/- ------------------------------------------------------------------ -/
/- euler_weak.m: the weak-convergence measurement script.

Per repetition the script draws two vectors r, r1 of 32000 standard-normal
values, runs a Milstein reference path at dtex = 0.0001 (loop at lines
28-38), and then, for each of the four coarsening factors 32, 64, 128 and
256, re-runs an Euler path on the coarse grid whose increments are
sqrt(dtex) times sums of 32 (resp. 64, 128, 256) of the same draws (loops
at lines 46-119).  All four coarse loops and the fine loop mutate the same
S, sig, xi arrays in place, but each loop writes position i reading only
position i-1 of its own previous writes, starting from position 1; position
1 is written before the fine loop (lines 22-24) and never again (every loop
starts at i = 2), so each loop is the straightforward recursion modelled
below, with S(1) = 50, sig(1) = 0.2, xi(1) = 0.2.

In the script the relaxation variable is advanced by a forward Euler step
(lines 36, 58, 77, 97, 116), not by RK4.

sqrt(dtex) = sqrt(1/10000) = 1/100 exactly. -/

namespace EulerWeak

def dtex : ℚ := 1 / 10000

def sqDtex : ℚ := 1 / 100

def muW : ℚ := 1 / 10

def pW : ℚ := 1

def alfa : ℚ := 1

def nsample : ℕ := 10000

/- The timestep array of lines 1-4. -/
def timestep (j : ℕ) : ℚ :=
  if j = 1 then 32 / 10000
  else if j = 2 then 64 / 10000
  else if j = 3 then 128 / 10000
  else if j = 4 then 256 / 10000
  else 0

/- The coarsening factor of each of the four coarse loops. -/
def kfac (j : ℕ) : ℕ :=
  if j = 1 then 32 else if j = 2 then 64
  else if j = 3 then 128 else if j = 4 then 256 else 0

/- The index at which each coarse loop's terminal value is read
(lines 61, 80, 100, 119): 1000, 500, 250, 125. -/
def tIdx (j : ℕ) : ℕ :=
  if j = 1 then 1000 else if j = 2 then 500
  else if j = 3 then 250 else if j = 4 then 125 else 0

/- One step of the fine Milstein reference loop (lines 29-36), fed the raw
draws r(i), r1(i). -/
def fineStep (prev : ℚ × ℚ × ℚ) (ri r1i : ℚ) : ℚ × ℚ × ℚ :=
  let deltaw := sqDtex * ri
  let deltaw1 := sqDtex * r1i
  let s := prev.1
  let v := prev.2.1
  let x := prev.2.2
  (s + muW * s * dtex + v * s * deltaw
     + (1/2) * v * v * s * (deltaw * deltaw - dtex),
   v - (v - x) * dtex + pW * v * deltaw1
     + (1/2) * pW * pW * v * (deltaw1 * deltaw1 - dtex),
   x + 1 / alfa * (v - x) * dtex)

/- The fine reference path: MATLAB position i holds fine r r1 i; position 0
does not exist in MATLAB and is never read. -/
def fine (r r1 : ℕ → ℚ) : ℕ → ℚ × ℚ × ℚ
  | 0 => (0, 0, 0)
  | 1 => (50, 1/5, 1/5)
  | n + 2 => fineStep (fine r r1 (n + 1)) (r (n + 2)) (r1 (n + 2))

/- The inner aggregation loop of each coarse block (for z = 1:k,
tmp = tmp + r(k*i - (k - z))). -/
def coarseTmp (r : ℕ → ℚ) (k i : ℕ) : ℚ :=
  Finset.sum (Finset.Icc 1 k) (fun z => r (k * i - (k - z)))

/- One step of a coarse Euler loop (lines 53-58 and the three analogous
blocks), fed the aggregated draw sums tmp, tmp1. -/
def coarseStep (dt : ℚ) (prev : ℚ × ℚ × ℚ) (tmp tmp1 : ℚ) : ℚ × ℚ × ℚ :=
  let deltaw := sqDtex * tmp
  let deltaw1 := sqDtex * tmp1
  let s := prev.1
  let v := prev.2.1
  let x := prev.2.2
  (s + muW * s * dt + v * s * deltaw,
   v - (v - x) * dt + pW * v * deltaw1,
   x + 1 / alfa * (v - x) * dt)

/- A coarse path with factor k and step dt: position 1 reads the initial
values surviving in S(1), sig(1), xi(1). -/
def coarse (r r1 : ℕ → ℚ) (k : ℕ) (dt : ℚ) : ℕ → ℚ × ℚ × ℚ
  | 0 => (0, 0, 0)
  | 1 => (50, 1/5, 1/5)
  | n + 2 => coarseStep dt (coarse r r1 k dt (n + 1))
      (coarseTmp r k (n + 2)) (coarseTmp r1 k (n + 2))

/- Terminal fine value accumulated into meanew32000 (lines 40-41). -/
def fineTerm (r r1 : ℕ → ℚ) : ℚ := (fine r r1 32000).1

/- Terminal coarse value accumulated into mean(j). -/
def coarseTerm (r r1 : ℕ → ℚ) (j : ℕ) : ℚ :=
  (coarse r r1 (kfac j) (timestep j) (tIdx j)).1

/- The accumulator mean(j) over all repetitions; R rep and R1 rep are the
draw vectors of repetition rep. -/
def meanAcc (R R1 : ℕ → ℕ → ℚ) (j : ℕ) : ℚ :=
  Finset.sum (Finset.range nsample) (fun rep => coarseTerm (R rep) (R1 rep) j)

/- The accumulator meanew32000 over all repetitions. -/
def meanew (R R1 : ℕ → ℕ → ℚ) : ℚ :=
  Finset.sum (Finset.range nsample) (fun rep => fineTerm (R rep) (R1 rep))

/- eweaknorm = abs(mean/nsample - meanew32000/nsample)  (line 123). -/
def eweaknorm (R R1 : ℕ → ℕ → ℚ) (j : ℕ) : ℚ :=
  |meanAcc R R1 j / (nsample : ℚ) - meanew R R1 / (nsample : ℚ)|

end EulerWeak

/- ------------------------------------------------------------------ -/
/- Correspondence between the flat-buffer worker machine and the direct
per-sample recursion pathRec. -/

section MachineLemmas

variable (fS fV : StepFn) (rs rv : ℕ → ℚ) (sdt mu p alpha Dt S0 sigma0 xi0 : ℚ)

/- After the initial write of a sample and m inner steps: the running index
has advanced by 1 + m, the draw counter by m, every buffer position below
the starting index is untouched, and positions start .. start+m hold the
first m+1 values of the per-sample recursion fed with draws starting at the
starting counter. -/
theorem innerIter_spec (st0 : SimState) (m : ℕ) :
    ((innerStep fS fV rs rv sdt mu p alpha Dt)^[m]
        (initSample S0 sigma0 xi0 st0)).idx = st0.idx + 1 + m
    ∧ ((innerStep fS fV rs rv sdt mu p alpha Dt)^[m]
        (initSample S0 sigma0 xi0 st0)).ctr = st0.ctr + m
    ∧ (∀ n, n < st0.idx →
        ((innerStep fS fV rs rv sdt mu p alpha Dt)^[m]
            (initSample S0 sigma0 xi0 st0)).bS n = st0.bS n
        ∧ ((innerStep fS fV rs rv sdt mu p alpha Dt)^[m]
            (initSample S0 sigma0 xi0 st0)).bV n = st0.bV n
        ∧ ((innerStep fS fV rs rv sdt mu p alpha Dt)^[m]
            (initSample S0 sigma0 xi0 st0)).bX n = st0.bX n)
    ∧ (∀ j, j ≤ m →
        ((innerStep fS fV rs rv sdt mu p alpha Dt)^[m]
            (initSample S0 sigma0 xi0 st0)).bS (st0.idx + j)
          = (pathRec fS fV mu p alpha Dt (fun n => rs (st0.ctr + n) * sdt)
              (fun n => rv (st0.ctr + n) * sdt) S0 sigma0 xi0 j).1
        ∧ ((innerStep fS fV rs rv sdt mu p alpha Dt)^[m]
            (initSample S0 sigma0 xi0 st0)).bV (st0.idx + j)
          = (pathRec fS fV mu p alpha Dt (fun n => rs (st0.ctr + n) * sdt)
              (fun n => rv (st0.ctr + n) * sdt) S0 sigma0 xi0 j).2.1
        ∧ ((innerStep fS fV rs rv sdt mu p alpha Dt)^[m]
            (initSample S0 sigma0 xi0 st0)).bX (st0.idx + j)
          = (pathRec fS fV mu p alpha Dt (fun n => rs (st0.ctr + n) * sdt)
              (fun n => rv (st0.ctr + n) * sdt) S0 sigma0 xi0 j).2.2) := by
  induction m with
  | zero =>
    refine ⟨by simp [initSample], by simp [initSample], ?_, ?_⟩
    · intro n hn
      simp only [Function.iterate_zero_apply, initSample]
      exact ⟨Function.update_noteq hn.ne _ _,
        Function.update_noteq hn.ne _ _, Function.update_noteq hn.ne _ _⟩
    · intro j hj
      have hj0 : j = 0 := Nat.le_zero.mp hj
      subst hj0
      simp [initSample, pathRec]
  | succ m ih =>
    obtain ⟨hidx, hctr, hframe, hcont⟩ := ih
    rw [Function.iterate_succ_apply']
    set stm := (innerStep fS fV rs rv sdt mu p alpha Dt)^[m]
      (initSample S0 sigma0 xi0 st0) with hstm
    refine ⟨?_, ?_, ?_, ?_⟩
    · simp only [innerStep, hidx]
      omega
    · simp only [innerStep, hctr]
      omega
    · intro n hn
      have hne : n ≠ stm.idx := by omega
      simp only [innerStep]
      exact ⟨(Function.update_noteq hne _ _).trans (hframe n hn).1,
        (Function.update_noteq hne _ _).trans (hframe n hn).2.1,
        (Function.update_noteq hne _ _).trans (hframe n hn).2.2⟩
    · intro j hj
      rcases Nat.lt_or_ge j (m + 1) with hjm | hjm
      · have hjm' : j ≤ m := by omega
        have hne : st0.idx + j ≠ stm.idx := by omega
        simp only [innerStep]
        exact ⟨(Function.update_noteq hne _ _).trans (hcont j hjm').1,
          (Function.update_noteq hne _ _).trans (hcont j hjm').2.1,
          (Function.update_noteq hne _ _).trans (hcont j hjm').2.2⟩
      · have hje : j = m + 1 := by omega
        subst hje
        have hpos : st0.idx + (m + 1) = stm.idx := by omega
        have hprev : stm.idx - 1 = st0.idx + m := by omega
        have hm := hcont m (Nat.le_refl m)
        simp only [innerStep, hpos, Function.update_same, hprev, hctr]
        rw [(hm).1, (hm).2.1, (hm).2.2]
        simp [pathRec]
end MachineLemmas

section MachineLemmas2

variable (fS fV : StepFn) (rs rv : ℕ → ℚ) (sdt mu p alpha Dt S0 sigma0 xi0 : ℚ)

/- One full sample (initial write plus N-1 inner steps) advances the index
by N and the counter by N-1, touches nothing below the starting index, and
fills positions start .. start+N-1 with the per-sample recursion. -/
theorem oneSample_spec (N : ℕ) (hN : 1 ≤ N) (st0 : SimState) :
    (oneSample fS fV rs rv sdt mu p alpha Dt S0 sigma0 xi0 N st0).idx
        = st0.idx + N
    ∧ (oneSample fS fV rs rv sdt mu p alpha Dt S0 sigma0 xi0 N st0).ctr
        = st0.ctr + (N - 1)
    ∧ (∀ n, n < st0.idx →
        (oneSample fS fV rs rv sdt mu p alpha Dt S0 sigma0 xi0 N st0).bS n
            = st0.bS n
        ∧ (oneSample fS fV rs rv sdt mu p alpha Dt S0 sigma0 xi0 N st0).bV n
            = st0.bV n
        ∧ (oneSample fS fV rs rv sdt mu p alpha Dt S0 sigma0 xi0 N st0).bX n
            = st0.bX n)
    ∧ (∀ j, j < N →
        (oneSample fS fV rs rv sdt mu p alpha Dt S0 sigma0 xi0 N st0).bS
            (st0.idx + j)
          = (pathRec fS fV mu p alpha Dt (fun n => rs (st0.ctr + n) * sdt)
              (fun n => rv (st0.ctr + n) * sdt) S0 sigma0 xi0 j).1
        ∧ (oneSample fS fV rs rv sdt mu p alpha Dt S0 sigma0 xi0 N st0).bV
            (st0.idx + j)
          = (pathRec fS fV mu p alpha Dt (fun n => rs (st0.ctr + n) * sdt)
              (fun n => rv (st0.ctr + n) * sdt) S0 sigma0 xi0 j).2.1
        ∧ (oneSample fS fV rs rv sdt mu p alpha Dt S0 sigma0 xi0 N st0).bX
            (st0.idx + j)
          = (pathRec fS fV mu p alpha Dt (fun n => rs (st0.ctr + n) * sdt)
              (fun n => rv (st0.ctr + n) * sdt) S0 sigma0 xi0 j).2.2) := by
  obtain ⟨hidx, hctr, hframe, hcont⟩ :=
    innerIter_spec fS fV rs rv sdt mu p alpha Dt S0 sigma0 xi0 st0 (N - 1)
  refine ⟨?_, ?_, hframe, ?_⟩
  · simp only [oneSample, hidx]
    omega
  · simp only [oneSample, hctr]
  · intro j hj
    exact hcont j (by omega)

/- The whole worker run: after all samples, the index is samples * N, the
counter samples * (N-1), and for every sample i and step j the flat buffers
at position i * N + j hold the pathRec values of sample i, whose draws
start at stream position i * (N-1). -/
theorem stockPath_spec (N : ℕ) (hN : 1 ≤ N) (samples : ℕ) :
    (stockPath fS fV rs rv sdt mu p alpha Dt S0 sigma0 xi0 samples N).idx
        = samples * N
    ∧ (stockPath fS fV rs rv sdt mu p alpha Dt S0 sigma0 xi0 samples N).ctr
        = samples * (N - 1)
    ∧ (∀ i j, i < samples → j < N →
        (stockPath fS fV rs rv sdt mu p alpha Dt S0 sigma0 xi0 samples N).bS
            (i * N + j)
          = (pathRec fS fV mu p alpha Dt
              (fun n => rs (i * (N - 1) + n) * sdt)
              (fun n => rv (i * (N - 1) + n) * sdt) S0 sigma0 xi0 j).1
        ∧ (stockPath fS fV rs rv sdt mu p alpha Dt S0 sigma0 xi0 samples N).bV
            (i * N + j)
          = (pathRec fS fV mu p alpha Dt
              (fun n => rs (i * (N - 1) + n) * sdt)
              (fun n => rv (i * (N - 1) + n) * sdt) S0 sigma0 xi0 j).2.1
        ∧ (stockPath fS fV rs rv sdt mu p alpha Dt S0 sigma0 xi0 samples N).bX
            (i * N + j)
          = (pathRec fS fV mu p alpha Dt
              (fun n => rs (i * (N - 1) + n) * sdt)
              (fun n => rv (i * (N - 1) + n) * sdt) S0 sigma0 xi0 j).2.2) := by
  induction samples with
  | zero =>
    refine ⟨by simp [stockPath], by simp [stockPath], ?_⟩
    intro i j hi _
    exact absurd hi (Nat.not_lt_zero i)
  | succ samples ih =>
    obtain ⟨hidx, hctr, hcont⟩ := ih
    have hrw : stockPath fS fV rs rv sdt mu p alpha Dt S0 sigma0 xi0
        (samples + 1) N
      = oneSample fS fV rs rv sdt mu p alpha Dt S0 sigma0 xi0 N
          (stockPath fS fV rs rv sdt mu p alpha Dt S0 sigma0 xi0 samples N) := by
      simp only [stockPath, Function.iterate_succ_apply']
    obtain ⟨hidx1, hctr1, hframe1, hcont1⟩ :=
      oneSample_spec fS fV rs rv sdt mu p alpha Dt S0 sigma0 xi0 N hN
        (stockPath fS fV rs rv sdt mu p alpha Dt S0 sigma0 xi0 samples N)
    refine ⟨?_, ?_, ?_⟩
    · rw [hrw, hidx1, hidx]
      ring
    · rw [hrw, hctr1, hctr]
      ring
    · intro i j hi hj
      rcases Nat.lt_or_ge i samples with his | his
      · have hlt : i * N + j < samples * N := by
          have h1 : i + 1 ≤ samples := his
          calc i * N + j < i * N + N := by omega
            _ = (i + 1) * N := by ring
            _ ≤ samples * N := Nat.mul_le_mul_right N h1
        rw [hrw]
        rw [hidx] at hframe1
        obtain ⟨e1, e2, e3⟩ := hframe1 (i * N + j) hlt
        rw [e1, e2, e3]
        exact hcont i j his hj
      · have hie : i = samples := by omega
        subst hie
        rw [hrw]
        have := hcont1 j hj
        rw [hidx, hctr] at this
        exact this

end MachineLemmas2

/- ------------------------------------------------------------------ -/
/- NumWrapper loop lemmas. -/

/- Every cell the NumWrapper loop writes lies in a column j >= 2. -/
theorem nwPairs_mem (samples N : ℕ) (q : ℕ × ℕ) (hq : q ∈ nwPairs samples N) :
    1 ≤ q.1 ∧ q.1 ≤ samples ∧ 2 ≤ q.2 ∧ q.2 ≤ N := by
  simp only [nwPairs, List.mem_flatMap, List.mem_map, List.mem_range] at hq
  obtain ⟨i0, hi0, j0, hj0, rfl⟩ := hq
  simp only []
  omega

/- A fold of loop bodies over cells in columns >= 2 never changes a
column-1 entry. -/
theorem nwFold_col1 (fS fV : StepFn) (phiS phiV : ℕ → ℕ → ℚ)
    (mu p alpha Dt : ℚ) (l : List (ℕ × ℕ)) (hl : ∀ q ∈ l, 2 ≤ q.2) :
    ∀ (M : NWMats) (s : ℕ),
      (List.foldl (nwBody fS fV phiS phiV mu p alpha Dt) M l).stockM (s, 1)
          = M.stockM (s, 1)
      ∧ (List.foldl (nwBody fS fV phiS phiV mu p alpha Dt) M l).volM (s, 1)
          = M.volM (s, 1)
      ∧ (List.foldl (nwBody fS fV phiS phiV mu p alpha Dt) M l).xiM (s, 1)
          = M.xiM (s, 1) := by
  induction l with
  | nil => intro M s; exact ⟨rfl, rfl, rfl⟩
  | cons q t ih =>
    intro M s
    have hq2 : 2 ≤ q.2 := hl q (List.mem_cons_self q t)
    have ht : ∀ q' ∈ t, 2 ≤ q'.2 := fun q' hq' => hl q' (List.mem_cons_of_mem q hq')
    have hne : ((s, 1) : ℕ × ℕ) ≠ (q.1, q.2) := by
      intro h
      have := congrArg Prod.snd h
      simp only [] at this
      omega
    have hbody : (nwBody fS fV phiS phiV mu p alpha Dt M q).stockM (s, 1)
          = M.stockM (s, 1)
        ∧ (nwBody fS fV phiS phiV mu p alpha Dt M q).volM (s, 1) = M.volM (s, 1)
        ∧ (nwBody fS fV phiS phiV mu p alpha Dt M q).xiM (s, 1) = M.xiM (s, 1) := by
      simp only [nwBody]
      exact ⟨Function.update_noteq hne _ _, Function.update_noteq hne _ _,
        Function.update_noteq hne _ _⟩
    rw [List.foldl_cons]
    obtain ⟨e1, e2, e3⟩ := ih ht (nwBody fS fV phiS phiV mu p alpha Dt M q) s
    exact ⟨e1.trans hbody.1, e2.trans hbody.2.1, e3.trans hbody.2.2⟩

/- The loop body never changes the allocated extents. -/
theorem nwFold_dims (fS fV : StepFn) (phiS phiV : ℕ → ℕ → ℚ)
    (mu p alpha Dt : ℚ) (l : List (ℕ × ℕ)) :
    ∀ M : NWMats,
      (List.foldl (nwBody fS fV phiS phiV mu p alpha Dt) M l).rows = M.rows
      ∧ (List.foldl (nwBody fS fV phiS phiV mu p alpha Dt) M l).cols = M.cols := by
  induction l with
  | nil => intro M; exact ⟨rfl, rfl⟩
  | cons q t ih =>
    intro M
    rw [List.foldl_cons]
    obtain ⟨e1, e2⟩ := ih (nwBody fS fV phiS phiV mu p alpha Dt M q)
    exact ⟨e1.trans rfl, e2.trans rfl⟩

/- After the whole NumWrapper run, column 1 still holds the initial
values, and the extents are samples x N. -/
theorem nwRun_spec (fS fV : StepFn) (phiS phiV : ℕ → ℕ → ℚ)
    (mu p alpha Dt : ℚ) (samples N : ℕ) (S0 sigma0 xi0 : ℚ)
    (s : ℕ) (hs1 : 1 ≤ s) (hs2 : s ≤ samples) :
    (nwRun fS fV phiS phiV mu p alpha Dt samples N S0 sigma0 xi0).rows = samples
    ∧ (nwRun fS fV phiS phiV mu p alpha Dt samples N S0 sigma0 xi0).cols = N
    ∧ (nwRun fS fV phiS phiV mu p alpha Dt samples N S0 sigma0 xi0).stockM (s, 1) = S0
    ∧ (nwRun fS fV phiS phiV mu p alpha Dt samples N S0 sigma0 xi0).volM (s, 1) = sigma0
    ∧ (nwRun fS fV phiS phiV mu p alpha Dt samples N S0 sigma0 xi0).xiM (s, 1) = xi0 := by
  have hcols : ∀ q ∈ nwPairs samples N, 2 ≤ q.2 := fun q hq => (nwPairs_mem samples N q hq).2.2.1
  obtain ⟨d1, d2⟩ := nwFold_dims fS fV phiS phiV mu p alpha Dt (nwPairs samples N)
    (nwInit samples N S0 sigma0 xi0)
  obtain ⟨e1, e2, e3⟩ := nwFold_col1 fS fV phiS phiV mu p alpha Dt (nwPairs samples N)
    hcols (nwInit samples N S0 sigma0 xi0) s
  refine ⟨d1, d2, ?_, ?_, ?_⟩
  · rw [nwRun] at *
    rw [e1]
    simp [nwInit, hs1, hs2]
  · rw [nwRun] at *
    rw [e2]
    simp [nwInit, hs1, hs2]
  · rw [nwRun] at *
    rw [e3]
    simp [nwInit, hs1, hs2]

/- ------------------------------------------------------------------ -/
/- euler_weak aggregation lemmas. -/

namespace EulerWeak

/- The inner aggregation loop sums exactly the draws with indices
k*i - k + 1 .. k*i. -/
theorem coarseTmp_group (r : ℕ → ℚ) (k i : ℕ) (hi : 1 ≤ i) :
    coarseTmp r k i = Finset.sum (Finset.Icc (k * i - k + 1) (k * i)) r := by
  obtain ⟨i', rfl⟩ : ∃ i', i = i' + 1 := ⟨i - 1, by omega⟩
  rw [coarseTmp, Nat.mul_succ]
  have hterm : ∀ z ∈ Finset.Icc 1 k,
      r (k * i' + k - (k - z)) = r (k * i' + z) := by
    intro z hz
    rw [Finset.mem_Icc] at hz
    congr 1
    omega
  rw [Finset.sum_congr rfl hterm]
  have hmap : Finset.Icc (k * i' + 1) (k * i' + k)
      = Finset.map (addLeftEmbedding (k * i')) (Finset.Icc 1 k) := by
    rw [Finset.map_add_left_Icc]
  have hint : k * i' + k - k + 1 = k * i' + 1 := by omega
  rw [hint, hmap, Finset.sum_map]
  rfl

/- Draw indices 2 .. k belong to no aggregation group of any coarse step
i >= 2. -/
theorem draws_excluded (k m i : ℕ) (_hm2 : 2 ≤ m) (hmk : m ≤ k) (hi : 2 ≤ i) :
    m ∉ Finset.Icc (k * i - k + 1) (k * i) := by
  have hki : k * 2 ≤ k * i := Nat.mul_le_mul_left k hi
  rw [Finset.mem_Icc]
  intro h
  omega

end EulerWeak

/- ------------------------------------------------------------------ -/
/- Concrete inputs used by witnesses and counterexamples. -/

def rZero : ℕ → ℚ := fun _ => 0

def rOneAt2 : ℕ → ℚ := fun i => if i = 2 then 1 else 0

def rTwo : ℕ → ℚ := fun _ => 2

def RZero : ℕ → ℕ → ℚ := fun _ _ => 0

def gZero : ℚ → ℕ → ℚ := fun _ _ => 0

def sqZero : ℚ → ℚ := fun _ => 0

/- The concrete scenario of spec section 8. -/
def cfgGood : SimConfig :=
  { seed := 42, samples := 1, Dt := 1/100, sigma0 := 1/5, S0 := 50,
    xi0 := 1/5, mu := 1/10, p := 1, alpha := 1, T := 1/50,
    method := eulerName }

def zzzName : String := "zzz"

def eulerishName : String := "eulerbogus"

def cfgBadMethod : SimConfig := { cfgGood with method := zzzName }

def cfgPreMethod : SimConfig := { cfgGood with method := eulerishName }

def cfgNoChecks : SimConfig := { cfgGood with samples := 0, Dt := -1, T := -2 }

/- The three path values of a successful result at a flat position. -/
def okBufAt : Except MexErr MexOut → ℕ → ℚ × ℚ × ℚ
  | Except.ok o, n => (o.bufS n, o.bufV n, o.bufX n)
  | Except.error _, _ => (0, 0, 0)

/- ------------------------------------------------------------------ -/
/- Reduction of mexFunction on its two main control paths. -/

theorem mex_badMethod_eq (rkS rkV : StepFn) (gauss : ℚ → ℕ → ℚ) (sq : ℚ → ℚ)
    (cfg : SimConfig) (hα : 0 < cfg.alpha)
    (hm : parseMethod cfg.method = none) :
    mexFunction rkS rkV gauss sq cfg
      = ([MexEvent.alloc (toMwSize (lround (cfg.T / cfg.Dt)))
            (toMwSize (lround cfg.samples)),
          MexEvent.alloc (toMwSize (lround (cfg.T / cfg.Dt)))
            (toMwSize (lround cfg.samples)),
          MexEvent.alloc (toMwSize (lround (cfg.T / cfg.Dt)))
            (toMwSize (lround cfg.samples))],
         Except.error MexErr.methodErr) := by
  simp [mexFunction, hα, hm]

theorem mex_ok_eq (rkS rkV : StepFn) (gauss : ℚ → ℕ → ℚ) (sq : ℚ → ℚ)
    (cfg : SimConfig) (m : NumMethod) (hα : 0 < cfg.alpha)
    (hm : parseMethod cfg.method = some m) :
    mexFunction rkS rkV gauss sq cfg
      = ([MexEvent.alloc (toMwSize (lround (cfg.T / cfg.Dt)))
            (toMwSize (lround cfg.samples)),
          MexEvent.alloc (toMwSize (lround (cfg.T / cfg.Dt)))
            (toMwSize (lround cfg.samples)),
          MexEvent.alloc (toMwSize (lround (cfg.T / cfg.Dt)))
            (toMwSize (lround cfg.samples)),
          MexEvent.rngAlloc, MexEvent.rngAlloc, MexEvent.rngSeed cfg.seed,
          MexEvent.rngSeed (cfg.seed + 1)],
         Except.ok
           ⟨toMwSize (lround (cfg.T / cfg.Dt)), toMwSize (lround cfg.samples),
            (stockPath (dispatch rkS rkV m).1 (dispatch rkS rkV m).2
              (gauss cfg.seed) (gauss (cfg.seed + 1)) (sq cfg.Dt) cfg.mu cfg.p
              cfg.alpha cfg.Dt cfg.S0 cfg.sigma0 cfg.xi0
              (toMwSize (lround cfg.samples))
              (toMwSize (lround (cfg.T / cfg.Dt)))).bS,
            (stockPath (dispatch rkS rkV m).1 (dispatch rkS rkV m).2
              (gauss cfg.seed) (gauss (cfg.seed + 1)) (sq cfg.Dt) cfg.mu cfg.p
              cfg.alpha cfg.Dt cfg.S0 cfg.sigma0 cfg.xi0
              (toMwSize (lround cfg.samples))
              (toMwSize (lround (cfg.T / cfg.Dt)))).bV,
            (stockPath (dispatch rkS rkV m).1 (dispatch rkS rkV m).2
              (gauss cfg.seed) (gauss (cfg.seed + 1)) (sq cfg.Dt) cfg.mu cfg.p
              cfg.alpha cfg.Dt cfg.S0 cfg.sigma0 cfg.xi0
              (toMwSize (lround cfg.samples))
              (toMwSize (lround (cfg.T / cfg.Dt)))).bX⟩) := by
  simp [mexFunction, hα, hm]

/- Evaluations of the configuration arithmetic at the concrete scenario. -/
theorem cfgGood_N : toMwSize (lround (cfgGood.T / cfgGood.Dt)) = 2 := by
  norm_num [cfgGood, lround, round_eq, toMwSize]
  decide

theorem cfgGood_samples : toMwSize (lround cfgGood.samples) = 1 := by
  norm_num [cfgGood, lround, round_eq, toMwSize]

/- ------------------------------------------------------------------ -/
/- Claim theorems. -/

/-- Claim C2, amended (corrected): when the configured method name does not
begin with euler, milstein or rk (in particular when it is none of the three
recognized names) and alpha is positive, mexFunction raises the
configuration error and its event trace consists of exactly the three
output-matrix allocations: the error occurs before any random stream is
created or seeded, but after the output arrays are allocated. -/
theorem C2_thm (rkS rkV : StepFn) (gauss : ℚ → ℕ → ℚ) (sq : ℚ → ℚ)
    (cfg : SimConfig) (hα : 0 < cfg.alpha)
    (hm : parseMethod cfg.method = none) :
    (mexFunction rkS rkV gauss sq cfg).2 = Except.error MexErr.methodErr
    ∧ (mexFunction rkS rkV gauss sq cfg).1
        = [MexEvent.alloc (toMwSize (lround (cfg.T / cfg.Dt)))
            (toMwSize (lround cfg.samples)),
          MexEvent.alloc (toMwSize (lround (cfg.T / cfg.Dt)))
            (toMwSize (lround cfg.samples)),
          MexEvent.alloc (toMwSize (lround (cfg.T / cfg.Dt)))
            (toMwSize (lround cfg.samples))] := by
  rw [mex_badMethod_eq rkS rkV gauss sq cfg hα hm]
  exact ⟨rfl, rfl⟩

theorem C2_witness :
    (mexFunction euler_stock euler_vol gZero sqZero cfgBadMethod).2
        = Except.error MexErr.methodErr
    ∧ (mexFunction euler_stock euler_vol gZero sqZero cfgBadMethod).1
        = [MexEvent.alloc (toMwSize (lround (cfgBadMethod.T / cfgBadMethod.Dt)))
            (toMwSize (lround cfgBadMethod.samples)),
          MexEvent.alloc (toMwSize (lround (cfgBadMethod.T / cfgBadMethod.Dt)))
            (toMwSize (lround cfgBadMethod.samples)),
          MexEvent.alloc (toMwSize (lround (cfgBadMethod.T / cfgBadMethod.Dt)))
            (toMwSize (lround cfgBadMethod.samples))] :=
  C2_thm euler_stock euler_vol gZero sqZero cfgBadMethod
    (by norm_num [cfgBadMethod, cfgGood]) (by decide)

/-- Claim C2 as stated is false: with the unrecognized method name zzz the
error is raised, yet the three output matrices were allocated first (the
trace contains allocation events), and the name eulerbogus, which is not
one of the three recognized names, raises no error at all because the check
is a prefix comparison. -/
theorem C2_counterexample :
    (mexFunction euler_stock euler_vol gZero sqZero cfgBadMethod).2
        = Except.error MexErr.methodErr
    ∧ MexEvent.alloc 2 1 ∈ (mexFunction euler_stock euler_vol gZero sqZero cfgBadMethod).1
    ∧ exceptOk (mexFunction euler_stock euler_vol gZero sqZero cfgPreMethod).2 = true
    ∧ cfgPreMethod.method ≠ eulerName
    ∧ cfgPreMethod.method ≠ milsteinName
    ∧ cfgPreMethod.method ≠ rkName := by
  have hbad := mex_badMethod_eq euler_stock euler_vol gZero sqZero cfgBadMethod
    (by norm_num [cfgBadMethod, cfgGood]) (by decide)
  have hok := mex_ok_eq euler_stock euler_vol gZero sqZero cfgPreMethod
    NumMethod.euler (by norm_num [cfgPreMethod, cfgGood]) (by decide)
  have hN : toMwSize (lround (cfgBadMethod.T / cfgBadMethod.Dt)) = 2 := by
    norm_num [cfgBadMethod, cfgGood, lround, round_eq, toMwSize]
    decide
  have hS : toMwSize (lround cfgBadMethod.samples) = 1 := by
    norm_num [cfgBadMethod, cfgGood, lround, round_eq, toMwSize]
  refine ⟨?_, ?_, ?_, by decide, by decide, by decide⟩
  · rw [hbad]
  · rw [hbad, hN, hS]
    exact List.mem_cons_self _ _
  · rw [hok]
    rfl

/-- Claim C4, amended (corrected): the configuration error is raised exactly
for non-positive alpha or a method name that does not begin with euler,
milstein or rk; Dt, T and sample_count are not validated, so non-positive
Dt, T or sample_count runs the simulation rather than failing. -/
theorem C4_thm (rkS rkV : StepFn) (gauss : ℚ → ℕ → ℚ) (sq : ℚ → ℚ)
    (cfg : SimConfig) :
    exceptOk (mexFunction rkS rkV gauss sq cfg).2 = false
      ↔ (cfg.alpha ≤ 0 ∨ parseMethod cfg.method = none) := by
  by_cases hα : 0 < cfg.alpha
  · cases hp : parseMethod cfg.method with
    | none =>
      rw [mex_badMethod_eq rkS rkV gauss sq cfg hα hp]
      simp [exceptOk]
    | some m =>
      rw [mex_ok_eq rkS rkV gauss sq cfg m hα hp]
      simp [exceptOk, not_le.mpr hα]
  · have hmex : mexFunction rkS rkV gauss sq cfg
        = ([], Except.error MexErr.alphaErr) := by
      simp [mexFunction, hα]
    rw [hmex]
    simp [exceptOk, not_lt.mp hα]

/-- Claim C4 as stated is false: a configuration with Dt = -1, T = -2 and
sample_count = 0 (all three violating the claimed checks) raises no error
and returns a successful result. -/
theorem C4_counterexample :
    exceptOk (mexFunction euler_stock euler_vol gZero sqZero cfgNoChecks).2 = true
    ∧ cfgNoChecks.Dt ≤ 0
    ∧ cfgNoChecks.T ≤ 0
    ∧ cfgNoChecks.samples ≤ 0 := by
  have hok := mex_ok_eq euler_stock euler_vol gZero sqZero cfgNoChecks
    NumMethod.euler (by norm_num [cfgNoChecks, cfgGood]) (by decide)
  refine ⟨?_, by norm_num [cfgNoChecks, cfgGood], by norm_num [cfgNoChecks, cfgGood],
    by norm_num [cfgNoChecks, cfgGood]⟩
  rw [hok]
  rfl

/-- Claim C9 (confirmed): the simulator is a pure function of its
configuration (the two gsl streams are freshly allocated and seeded from
the configured seed inside every invocation, and there is no other state),
so two invocations of mexFunction on equal configurations return equal
traces and equal output matrices, element for element. -/
theorem C9_thm (rkS rkV : StepFn) (gauss : ℚ → ℕ → ℚ) (sq : ℚ → ℚ)
    (cfg cfg' : SimConfig) (h : cfg = cfg') :
    mexFunction rkS rkV gauss sq cfg = mexFunction rkS rkV gauss sq cfg'
    ∧ ∀ n, okBufAt (mexFunction rkS rkV gauss sq cfg).2 n
        = okBufAt (mexFunction rkS rkV gauss sq cfg').2 n := by
  subst h
  exact ⟨rfl, fun _ => rfl⟩

theorem C9_witness :
    mexFunction euler_stock euler_vol gZero sqZero cfgGood
        = mexFunction euler_stock euler_vol gZero sqZero cfgGood
    ∧ okBufAt (mexFunction euler_stock euler_vol gZero sqZero cfgGood).2 0
        = okBufAt (mexFunction euler_stock euler_vol gZero sqZero cfgGood).2 0 :=
  ⟨(C9_thm euler_stock euler_vol gZero sqZero cfgGood cfgGood rfl).1,
   (C9_thm euler_stock euler_vol gZero sqZero cfgGood cfgGood rfl).2 0⟩

/-- Claim C6, amended (corrected): a successful MEX invocation returns three
real-valued matrices of shape [N, sample_count] (mxCreateDoubleMatrix(N,
samples): one column per sample, one row per step), whose row 0 holds the
initial values; NumWrapper, by contrast, allocates [sample_count, N]
matrices whose column 1 holds the initial values. -/
theorem C6_thm (rkS rkV : StepFn) (gauss : ℚ → ℕ → ℚ) (sq : ℚ → ℚ)
    (cfg : SimConfig) (m : NumMethod) (i : ℕ)
    (fS fV : StepFn) (phiS phiV : ℕ → ℕ → ℚ)
    (muq pq alphaq Dtq S0w sigma0w xi0w : ℚ) (samplesW Nw s : ℕ)
    (hα : 0 < cfg.alpha) (hm : parseMethod cfg.method = some m)
    (hN : 1 ≤ toMwSize (lround (cfg.T / cfg.Dt)))
    (hi : i < toMwSize (lround cfg.samples))
    (hs1 : 1 ≤ s) (hs2 : s ≤ samplesW) :
    okDims (mexFunction rkS rkV gauss sq cfg).2
      = some (toMwSize (lround (cfg.T / cfg.Dt)), toMwSize (lround cfg.samples))
    ∧ okBufAt (mexFunction rkS rkV gauss sq cfg).2
        (i * toMwSize (lround (cfg.T / cfg.Dt)))
      = (cfg.S0, cfg.sigma0, cfg.xi0)
    ∧ (nwRun fS fV phiS phiV muq pq alphaq Dtq samplesW Nw S0w sigma0w xi0w).rows
        = samplesW
    ∧ (nwRun fS fV phiS phiV muq pq alphaq Dtq samplesW Nw S0w sigma0w xi0w).cols
        = Nw
    ∧ (nwRun fS fV phiS phiV muq pq alphaq Dtq samplesW Nw S0w sigma0w xi0w).stockM (s, 1)
        = S0w
    ∧ (nwRun fS fV phiS phiV muq pq alphaq Dtq samplesW Nw S0w sigma0w xi0w).volM (s, 1)
        = sigma0w
    ∧ (nwRun fS fV phiS phiV muq pq alphaq Dtq samplesW Nw S0w sigma0w xi0w).xiM (s, 1)
        = xi0w := by
  obtain ⟨w1, w2, w3, w4, w5⟩ := nwRun_spec fS fV phiS phiV muq pq alphaq Dtq
    samplesW Nw S0w sigma0w xi0w s hs1 hs2
  rw [mex_ok_eq rkS rkV gauss sq cfg m hα hm]
  refine ⟨rfl, ?_, w1, w2, w3, w4, w5⟩
  obtain ⟨_, _, hcont⟩ := stockPath_spec (dispatch rkS rkV m).1 (dispatch rkS rkV m).2
    (gauss cfg.seed) (gauss (cfg.seed + 1)) (sq cfg.Dt) cfg.mu cfg.p cfg.alpha
    cfg.Dt cfg.S0 cfg.sigma0 cfg.xi0 (toMwSize (lround (cfg.T / cfg.Dt))) hN
    (toMwSize (lround cfg.samples))
  have h := hcont i 0 hi (by omega)
  have h1 : (stockPath (dispatch rkS rkV m).1 (dispatch rkS rkV m).2
      (gauss cfg.seed) (gauss (cfg.seed + 1)) (sq cfg.Dt) cfg.mu cfg.p cfg.alpha
      cfg.Dt cfg.S0 cfg.sigma0 cfg.xi0 (toMwSize (lround cfg.samples))
      (toMwSize (lround (cfg.T / cfg.Dt)))).bS
        (i * toMwSize (lround (cfg.T / cfg.Dt))) = cfg.S0 := h.1
  have h2 : (stockPath (dispatch rkS rkV m).1 (dispatch rkS rkV m).2
      (gauss cfg.seed) (gauss (cfg.seed + 1)) (sq cfg.Dt) cfg.mu cfg.p cfg.alpha
      cfg.Dt cfg.S0 cfg.sigma0 cfg.xi0 (toMwSize (lround cfg.samples))
      (toMwSize (lround (cfg.T / cfg.Dt)))).bV
        (i * toMwSize (lround (cfg.T / cfg.Dt))) = cfg.sigma0 := h.2.1
  have h3 : (stockPath (dispatch rkS rkV m).1 (dispatch rkS rkV m).2
      (gauss cfg.seed) (gauss (cfg.seed + 1)) (sq cfg.Dt) cfg.mu cfg.p cfg.alpha
      cfg.Dt cfg.S0 cfg.sigma0 cfg.xi0 (toMwSize (lround cfg.samples))
      (toMwSize (lround (cfg.T / cfg.Dt)))).bX
        (i * toMwSize (lround (cfg.T / cfg.Dt))) = cfg.xi0 := h.2.2
  show ((stockPath (dispatch rkS rkV m).1 (dispatch rkS rkV m).2
      (gauss cfg.seed) (gauss (cfg.seed + 1)) (sq cfg.Dt) cfg.mu cfg.p cfg.alpha
      cfg.Dt cfg.S0 cfg.sigma0 cfg.xi0 (toMwSize (lround cfg.samples))
      (toMwSize (lround (cfg.T / cfg.Dt)))).bS
        (i * toMwSize (lround (cfg.T / cfg.Dt))),
    (stockPath (dispatch rkS rkV m).1 (dispatch rkS rkV m).2
      (gauss cfg.seed) (gauss (cfg.seed + 1)) (sq cfg.Dt) cfg.mu cfg.p cfg.alpha
      cfg.Dt cfg.S0 cfg.sigma0 cfg.xi0 (toMwSize (lround cfg.samples))
      (toMwSize (lround (cfg.T / cfg.Dt)))).bV
        (i * toMwSize (lround (cfg.T / cfg.Dt))),
    (stockPath (dispatch rkS rkV m).1 (dispatch rkS rkV m).2
      (gauss cfg.seed) (gauss (cfg.seed + 1)) (sq cfg.Dt) cfg.mu cfg.p cfg.alpha
      cfg.Dt cfg.S0 cfg.sigma0 cfg.xi0 (toMwSize (lround cfg.samples))
      (toMwSize (lround (cfg.T / cfg.Dt)))).bX
        (i * toMwSize (lround (cfg.T / cfg.Dt))))
    = (cfg.S0, cfg.sigma0, cfg.xi0)
  rw [h1, h2, h3]

theorem C6_witness :
    okDims (mexFunction euler_stock euler_vol gZero sqZero cfgGood).2
      = some (toMwSize (lround (cfgGood.T / cfgGood.Dt)),
          toMwSize (lround cfgGood.samples))
    ∧ okBufAt (mexFunction euler_stock euler_vol gZero sqZero cfgGood).2
        (0 * toMwSize (lround (cfgGood.T / cfgGood.Dt)))
      = (cfgGood.S0, cfgGood.sigma0, cfgGood.xi0) :=
  ⟨(C6_thm euler_stock euler_vol gZero sqZero cfgGood NumMethod.euler 0
      euler_stock euler_vol (fun _ _ => 0) (fun _ _ => 0) 1 1 1 1 1 1 1 1 1 1
      (by norm_num [cfgGood]) (by decide)
      (by rw [cfgGood_N]; omega) (by rw [cfgGood_samples]; omega)
      (by omega) (by omega)).1,
   (C6_thm euler_stock euler_vol gZero sqZero cfgGood NumMethod.euler 0
      euler_stock euler_vol (fun _ _ => 0) (fun _ _ => 0) 1 1 1 1 1 1 1 1 1 1
      (by norm_num [cfgGood]) (by decide)
      (by rw [cfgGood_N]; omega) (by rw [cfgGood_samples]; omega)
      (by omega) (by omega)).2.1⟩

/-- Claim C6 as stated is false: at the spec's own concrete scenario
(sample_count = 1, N = 2) the MEX gateway allocates the three output
matrices with mxCreateDoubleMatrix(N, samples), so their shape is (2, 1) =
[N, sample_count], not (1, 2) = [sample_count, N]. -/
theorem C6_counterexample :
    okDims (mexFunction euler_stock euler_vol gZero sqZero cfgGood).2 = some (2, 1)
    ∧ ((2, 1) : ℕ × ℕ) ≠ ((1, 2) : ℕ × ℕ) := by
  refine ⟨?_, by decide⟩
  rw [mex_ok_eq euler_stock euler_vol gZero sqZero cfgGood NumMethod.euler
    (by norm_num [cfgGood]) (by decide)]
  show some (toMwSize (lround (cfgGood.T / cfgGood.Dt)),
    toMwSize (lround cfgGood.samples)) = some ((2 : ℕ), (1 : ℕ))
  rw [cfgGood_N, cfgGood_samples]

/-- Claim C7, amended (corrected): in the MEX gateway the step count is
lround(T/Dt), which for the valid range T/Dt >= 0 equals round(T/Dt), and it
determines the row extent of the outputs; NumWrapper, however, sets
N = T/Dt with no rounding at all, which coincides with round(T/Dt) exactly
when T/Dt is an integer. -/
theorem C7_thm (rkS rkV : StepFn) (gauss : ℚ → ℕ → ℚ) (sq : ℚ → ℚ)
    (cfg : SimConfig) (m : NumMethod) (Tq Dtq : ℚ)
    (hα : 0 < cfg.alpha) (hm : parseMethod cfg.method = some m)
    (hq : 0 ≤ cfg.T / cfg.Dt) (hb : lround (cfg.T / cfg.Dt) < 2 ^ 64) :
    okDims (mexFunction rkS rkV gauss sq cfg).2
      = some ((round (cfg.T / cfg.Dt)).toNat, toMwSize (lround cfg.samples))
    ∧ lround (cfg.T / cfg.Dt) = round (cfg.T / cfg.Dt)
    ∧ nwN Tq Dtq = Tq / Dtq
    ∧ (nwN Tq Dtq = ((round (Tq / Dtq) : ℤ) : ℚ) ↔ (Tq / Dtq).den = 1) := by
  have hlr : lround (cfg.T / cfg.Dt) = round (cfg.T / cfg.Dt) := by
    rw [lround, if_pos hq]
  have hr0 : 0 ≤ round (cfg.T / cfg.Dt) := by
    rw [round_eq]
    exact Int.floor_nonneg.mpr (by linarith)
  have htm : toMwSize (lround (cfg.T / cfg.Dt)) = (round (cfg.T / cfg.Dt)).toNat := by
    rw [toMwSize, hlr, Int.emod_eq_of_lt hr0 (by rw [← hlr]; exact hb)]
  refine ⟨?_, hlr, rfl, ?_⟩
  · rw [mex_ok_eq rkS rkV gauss sq cfg m hα hm]
    show some (toMwSize (lround (cfg.T / cfg.Dt)), toMwSize (lround cfg.samples)) = _
    rw [htm]
  · constructor
    · intro h
      rw [nwN] at h
      rw [h]
      exact Rat.den_intCast _
    · intro hden
      have h1 : ((Tq / Dtq).num : ℚ) = Tq / Dtq :=
        Rat.coe_int_num_of_den_eq_one hden
      rw [nwN]
      conv_lhs => rw [← h1]
      conv_rhs => rw [← h1, round_intCast]

theorem C7_witness :
    okDims (mexFunction euler_stock euler_vol gZero sqZero cfgGood).2
      = some ((round (cfgGood.T / cfgGood.Dt)).toNat, toMwSize (lround cfgGood.samples))
    ∧ lround (cfgGood.T / cfgGood.Dt) = round (cfgGood.T / cfgGood.Dt)
    ∧ nwN 1 (1/2) = 1 / (1/2)
    ∧ (nwN 1 (1/2) = ((round ((1 : ℚ) / (1/2)) : ℤ) : ℚ) ↔ ((1 : ℚ) / (1/2)).den = 1) :=
  C7_thm euler_stock euler_vol gZero sqZero cfgGood NumMethod.euler 1 (1/2)
    (by norm_num [cfgGood]) (by decide) (by norm_num [cfgGood])
    (by norm_num [cfgGood, lround, round_eq])

/-- Claim C7 as stated is false for NumWrapper: at T = 1, Dt = 2/5 the
wrapper's step count N = T/Dt is 5/2, which is not round(T/Dt) = 3 (it is
not an integer at all). -/
theorem C7_counterexample :
    nwN 1 (2/5) ≠ ((round (nwN 1 (2/5)) : ℤ) : ℚ) := by
  norm_num [nwN, round_eq]

/-- Claim C8 (confirmed): in a completed run of the MEX worker with N >= 1,
for every sample i the flat buffers at position i*N (row 0 of sample i's
column) hold S0, sigma0 and xi0 — the later steps of the run write only
positions i*N + j with j >= 1 and never overwrite them; likewise in
NumWrapper every loop write lands in a column >= 2, so after the whole run
column 1 of every sample row still holds the initial values. -/
theorem C8_thm (fS fV : StepFn) (rs rv : ℕ → ℚ)
    (sdt mu p alpha Dt S0 sigma0 xi0 : ℚ) (samples N i : ℕ)
    (hN : 1 ≤ N) (hi : i < samples)
    (phiS phiV : ℕ → ℕ → ℚ) (muq pq alphaq Dtq S0w sigma0w xi0w : ℚ)
    (samplesW Nw s : ℕ) (hs1 : 1 ≤ s) (hs2 : s ≤ samplesW) :
    (stockPath fS fV rs rv sdt mu p alpha Dt S0 sigma0 xi0 samples N).bS (i * N) = S0
    ∧ (stockPath fS fV rs rv sdt mu p alpha Dt S0 sigma0 xi0 samples N).bV (i * N) = sigma0
    ∧ (stockPath fS fV rs rv sdt mu p alpha Dt S0 sigma0 xi0 samples N).bX (i * N) = xi0
    ∧ (nwRun fS fV phiS phiV muq pq alphaq Dtq samplesW Nw S0w sigma0w xi0w).stockM (s, 1) = S0w
    ∧ (nwRun fS fV phiS phiV muq pq alphaq Dtq samplesW Nw S0w sigma0w xi0w).volM (s, 1) = sigma0w
    ∧ (nwRun fS fV phiS phiV muq pq alphaq Dtq samplesW Nw S0w sigma0w xi0w).xiM (s, 1) = xi0w := by
  obtain ⟨_, _, hcont⟩ :=
    stockPath_spec fS fV rs rv sdt mu p alpha Dt S0 sigma0 xi0 N hN samples
  have h := hcont i 0 hi (by omega)
  obtain ⟨_, _, w1, w2, w3⟩ := nwRun_spec fS fV phiS phiV muq pq alphaq Dtq
    samplesW Nw S0w sigma0w xi0w s hs1 hs2
  exact ⟨h.1, h.2.1, h.2.2, w1, w2, w3⟩

theorem C8_witness :
    (stockPath euler_stock euler_vol rZero rZero 1 1 1 1 1 50 (1/5) (1/5) 1 1).bS (0 * 1) = 50
    ∧ (stockPath euler_stock euler_vol rZero rZero 1 1 1 1 1 50 (1/5) (1/5) 1 1).bV (0 * 1) = 1/5
    ∧ (stockPath euler_stock euler_vol rZero rZero 1 1 1 1 1 50 (1/5) (1/5) 1 1).bX (0 * 1) = 1/5
    ∧ (nwRun euler_stock euler_vol (fun _ _ => 0) (fun _ _ => 0) 1 1 1 1 1 1 50 (1/5) (1/5)).stockM (1, 1) = 50
    ∧ (nwRun euler_stock euler_vol (fun _ _ => 0) (fun _ _ => 0) 1 1 1 1 1 1 50 (1/5) (1/5)).volM (1, 1) = 1/5
    ∧ (nwRun euler_stock euler_vol (fun _ _ => 0) (fun _ _ => 0) 1 1 1 1 1 1 50 (1/5) (1/5)).xiM (1, 1) = 1/5 :=
  C8_thm euler_stock euler_vol rZero rZero 1 1 1 1 1 50 (1/5) (1/5) 1 1 0
    (by decide) (by decide) (fun _ _ => 0) (fun _ _ => 0) 1 1 1 1 50 (1/5) (1/5)
    1 1 1 (by decide) (by decide)

/-- Claim C1, amended (corrected): in the path simulator the relaxation
variable is advanced at every step by the fourth-order Runge-Kutta formula
of spec section 4.3 regardless of which scheme step functions are
dispatched — in the MEX worker the xi buffer at every interior position
i*N + j equals rk4Next of the previous position's volatility and xi, and in
NumWrapper every loop write of the relaxation cell is the same RK4 value of
the previous column.  The internal two-resolution pipeline of the
convergence harness, however, advances xi by a forward Euler step
xi + (1/alpha)*(vol - xi)*dt in both its fine and its coarse loops, not by
RK4. -/
theorem C1_thm (fS fV : StepFn) (rs rv : ℕ → ℚ)
    (sdt mu p alpha Dt S0 sigma0 xi0 v x Dtq aq dtc : ℚ)
    (samples N i j : ℕ) (hN : 1 ≤ N) (hi : i < samples)
    (hj1 : 1 ≤ j) (hj : j < N)
    (phiS phiV : ℕ → ℕ → ℚ) (M : NWMats) (iw jw : ℕ)
    (r r1 : ℕ → ℚ) (n kc : ℕ) :
    (stockPath fS fV rs rv sdt mu p alpha Dt S0 sigma0 xi0 samples N).bX (i * N + j)
      = rk4Next
          ((stockPath fS fV rs rv sdt mu p alpha Dt S0 sigma0 xi0 samples N).bV (i * N + j - 1))
          ((stockPath fS fV rs rv sdt mu p alpha Dt S0 sigma0 xi0 samples N).bX (i * N + j - 1))
          Dt alpha
    ∧ (nwBody fS fV phiS phiV mu p alpha Dt M (iw, jw)).xiM (iw, jw)
        = nwRk4 (M.volM (iw, jw - 1)) (M.xiM (iw, jw - 1)) Dt alpha
    ∧ nwRk4 v x Dtq aq = rk4Next v x Dtq aq
    ∧ (EulerWeak.fine r r1 (n + 2)).2.2
        = (EulerWeak.fine r r1 (n + 1)).2.2
          + 1 / EulerWeak.alfa
            * ((EulerWeak.fine r r1 (n + 1)).2.1 - (EulerWeak.fine r r1 (n + 1)).2.2)
            * EulerWeak.dtex
    ∧ (EulerWeak.coarse r r1 kc dtc (n + 2)).2.2
        = (EulerWeak.coarse r r1 kc dtc (n + 1)).2.2
          + 1 / EulerWeak.alfa
            * ((EulerWeak.coarse r r1 kc dtc (n + 1)).2.1
                - (EulerWeak.coarse r r1 kc dtc (n + 1)).2.2)
            * dtc := by
  refine ⟨?_, ?_, ?_, ?_, ?_⟩
  · obtain ⟨_, _, hcont⟩ :=
      stockPath_spec fS fV rs rv sdt mu p alpha Dt S0 sigma0 xi0 N hN samples
    obtain ⟨j', rfl⟩ : ∃ j', j = j' + 1 := ⟨j - 1, by omega⟩
    have hx := (hcont i (j' + 1) hi hj).2.2
    have hvp := (hcont i j' hi (by omega)).2.1
    have hxp := (hcont i j' hi (by omega)).2.2
    have hpos : i * N + (j' + 1) - 1 = i * N + j' := by omega
    rw [hpos, hx, hvp, hxp]
    simp [pathRec]
  · simp [nwBody]
  · simp only [nwRk4, rk4Next]
    ring
  · simp only [EulerWeak.fine, EulerWeak.fineStep]
  · simp only [EulerWeak.coarse, EulerWeak.coarseStep]

theorem C1_witness :
    (stockPath euler_stock euler_vol rZero rZero 1 1 1 1 1 1 1 1 1 2).bX (0 * 2 + 1)
      = rk4Next
          ((stockPath euler_stock euler_vol rZero rZero 1 1 1 1 1 1 1 1 1 2).bV (0 * 2 + 1 - 1))
          ((stockPath euler_stock euler_vol rZero rZero 1 1 1 1 1 1 1 1 1 2).bX (0 * 2 + 1 - 1))
          1 1
    ∧ (nwBody euler_stock euler_vol (fun _ _ => 0) (fun _ _ => 0) 1 1 1 1
          (nwInit 1 2 1 1 1) (1, 2)).xiM (1, 2)
        = nwRk4 ((nwInit 1 2 1 1 1).volM (1, 2 - 1)) ((nwInit 1 2 1 1 1).xiM (1, 2 - 1)) 1 1 :=
  ⟨(C1_thm euler_stock euler_vol rZero rZero 1 1 1 1 1 1 1 1 1 1 1 1 1 1 2 0 1
      (by decide) (by decide) (by decide) (by decide)
      (fun _ _ => 0) (fun _ _ => 0) (nwInit 1 2 1 1 1) 1 2 rZero rZero 0 2).1,
   (C1_thm euler_stock euler_vol rZero rZero 1 1 1 1 1 1 1 1 1 1 1 1 1 1 2 0 1
      (by decide) (by decide) (by decide) (by decide)
      (fun _ _ => 0) (fun _ _ => 0) (nwInit 1 2 1 1 1) 1 2 rZero rZero 0 2).2.1⟩

/-- Claim C1 as stated is false for the convergence harness: at the
concrete draws r = 0, r1 = 1 at index 2 (and the script's own constants),
the relaxation value at fine position 3 differs from what the RK4 formula
of spec section 4.3 would give from position 2 — the harness uses a forward
Euler update for xi instead. -/
theorem C1_counterexample :
    (EulerWeak.fine rZero rOneAt2 3).2.2
      ≠ rk4Next (EulerWeak.fine rZero rOneAt2 2).2.1
          (EulerWeak.fine rZero rOneAt2 2).2.2 EulerWeak.dtex EulerWeak.alfa := by
  norm_num [EulerWeak.fine, EulerWeak.fineStep, EulerWeak.dtex, EulerWeak.sqDtex,
    EulerWeak.muW, EulerWeak.pW, EulerWeak.alfa, rZero, rOneAt2, rk4Next]

/- With sigma0 = 0, xi0 = 0 and p = 0, the volatility and relaxation
components stay identically zero and the Milstein corrections vanish, so
the Milstein per-sample recursion coincides with the Euler one. -/
theorem pathRec_mil_eq_eul (mu alpha Dt : ℚ) (dW dW1 : ℕ → ℚ) (S0 : ℚ) (j : ℕ) :
    pathRec milstein_stock milstein_vol mu 0 alpha Dt dW dW1 S0 0 0 j
      = pathRec euler_stock euler_vol mu 0 alpha Dt dW dW1 S0 0 0 j
    ∧ (pathRec euler_stock euler_vol mu 0 alpha Dt dW dW1 S0 0 0 j).2.1 = 0
    ∧ (pathRec euler_stock euler_vol mu 0 alpha Dt dW dW1 S0 0 0 j).2.2 = 0 := by
  induction j with
  | zero => exact ⟨rfl, rfl, rfl⟩
  | succ j ih =>
    obtain ⟨heq, hv, hx⟩ := ih
    refine ⟨?_, ?_, ?_⟩
    · simp only [pathRec, heq, hv, hx]
      refine Prod.ext ?_ (Prod.ext ?_ rfl)
      · simp only [milstein_stock, euler_stock]
        ring
      · simp only [milstein_vol, euler_vol]
        ring
    · simp only [pathRec, hv, hx, euler_vol]
      ring
    · simp only [pathRec, hv, hx, rk4Next]
      ring

/-- Claim C5, amended (corrected): for every configuration with sigma0 = 0,
xi0 = 0 and p = 0 and identical random streams, the Milstein and Euler
schemes produce identical stock and volatility paths at every sample and
every step.  (sigma0 = 0 and p = 0 alone are not enough: with xi0 nonzero
the volatility becomes nonzero after one step and the Milstein stock
correction then differs from Euler — see the counterexample.) -/
theorem C5_thm (rs rv : ℕ → ℚ) (sdt mu alpha Dt S0 : ℚ) (samples N i j : ℕ)
    (hN : 1 ≤ N) (hi : i < samples) (hj : j < N) :
    (stockPath milstein_stock milstein_vol rs rv sdt mu 0 alpha Dt S0 0 0 samples N).bS (i * N + j)
      = (stockPath euler_stock euler_vol rs rv sdt mu 0 alpha Dt S0 0 0 samples N).bS (i * N + j)
    ∧ (stockPath milstein_stock milstein_vol rs rv sdt mu 0 alpha Dt S0 0 0 samples N).bV (i * N + j)
      = (stockPath euler_stock euler_vol rs rv sdt mu 0 alpha Dt S0 0 0 samples N).bV (i * N + j) := by
  obtain ⟨_, _, hmc⟩ :=
    stockPath_spec milstein_stock milstein_vol rs rv sdt mu 0 alpha Dt S0 0 0 N hN samples
  obtain ⟨_, _, hec⟩ :=
    stockPath_spec euler_stock euler_vol rs rv sdt mu 0 alpha Dt S0 0 0 N hN samples
  have hm := hmc i j hi hj
  have he := hec i j hi hj
  have hpq := pathRec_mil_eq_eul mu alpha Dt
    (fun n => rs (i * (N - 1) + n) * sdt) (fun n => rv (i * (N - 1) + n) * sdt) S0 j
  constructor
  · rw [hm.1, he.1, hpq.1]
  · rw [hm.2.1, he.2.1, hpq.1]

theorem C5_witness :
    (stockPath milstein_stock milstein_vol rZero rZero 1 1 0 1 1 50 0 0 1 2).bS (0 * 2 + 1)
      = (stockPath euler_stock euler_vol rZero rZero 1 1 0 1 1 50 0 0 1 2).bS (0 * 2 + 1)
    ∧ (stockPath milstein_stock milstein_vol rZero rZero 1 1 0 1 1 50 0 0 1 2).bV (0 * 2 + 1)
      = (stockPath euler_stock euler_vol rZero rZero 1 1 0 1 1 50 0 0 1 2).bV (0 * 2 + 1) :=
  C5_thm rZero rZero 1 1 1 1 50 1 2 0 1 (by decide) (by decide) (by decide)

/-- Claim C5 as stated is false: with sigma0 = 0 and p = 0 but xi0 = 1
(the claim constrains only sigma0 and p), identical constant streams, Dt =
1, mu = 0, alpha = 1 and S0 = 1, the Milstein and Euler stock paths already
differ at step 2: the volatility relaxes to 1 after one step and the
Milstein correction (1/2)*vol^2*S*(dW^2 - Dt) is then nonzero. -/
theorem C5_counterexample :
    (stockPath milstein_stock milstein_vol rTwo rTwo 1 0 0 1 1 1 0 1 1 3).bS 2 = 9/2
    ∧ (stockPath euler_stock euler_vol rTwo rTwo 1 0 0 1 1 1 0 1 1 3).bS 2 = 3
    ∧ ((9 : ℚ)/2) ≠ 3 := by
  have hm := ((stockPath_spec milstein_stock milstein_vol rTwo rTwo 1 0 0 1 1 1 0 1 3
    (by decide) 1).2.2 0 2 (by decide) (by decide)).1
  have he := ((stockPath_spec euler_stock euler_vol rTwo rTwo 1 0 0 1 1 1 0 1 3
    (by decide) 1).2.2 0 2 (by decide) (by decide)).1
  refine ⟨hm.trans ?_, he.trans ?_, by norm_num⟩
  · norm_num [pathRec, milstein_stock, milstein_vol, rk4Next, rTwo]
  · norm_num [pathRec, euler_stock, euler_vol, rk4Next, rTwo]

/-- Claim C3 (confirmed): for each of the four coarsening factors k =
kfac j (j = 1..4), the coarse step size is k times the fine step, the
terminal coarse index times k covers the 32000 fine steps, the aggregated
coarse Wiener increment of coarse step i is the sum of the k consecutive
fine increments with indices k*i-k+1 .. k*i of the same draws that drove
the fine reference path, the coarse loop is exactly the Euler scheme fed
those aggregated increments, and the reported error for factor j is
|mean(S_coarse(T)) - mean(S_fine(T))| over all repetitions. -/
theorem C3_thm (R R1 : ℕ → ℕ → ℚ) (r r1 : ℕ → ℚ) (j : ℕ)
    (hj1 : 1 ≤ j) (hj4 : j ≤ 4) :
    EulerWeak.timestep j = (EulerWeak.kfac j : ℚ) * EulerWeak.dtex
    ∧ EulerWeak.kfac j * EulerWeak.tIdx j = 32000
    ∧ (∀ i, 1 ≤ i →
        EulerWeak.sqDtex * EulerWeak.coarseTmp r (EulerWeak.kfac j) i
          = Finset.sum
              (Finset.Icc (EulerWeak.kfac j * i - EulerWeak.kfac j + 1)
                (EulerWeak.kfac j * i))
              (fun mi => EulerWeak.sqDtex * r mi))
    ∧ (∀ n, EulerWeak.coarse r r1 (EulerWeak.kfac j) (EulerWeak.timestep j) (n + 2)
          = EulerWeak.coarseStep (EulerWeak.timestep j)
              (EulerWeak.coarse r r1 (EulerWeak.kfac j) (EulerWeak.timestep j) (n + 1))
              (EulerWeak.coarseTmp r (EulerWeak.kfac j) (n + 2))
              (EulerWeak.coarseTmp r1 (EulerWeak.kfac j) (n + 2)))
    ∧ (∀ (dt : ℚ) (prev : ℚ × ℚ × ℚ) (t t1 : ℚ),
        (EulerWeak.coarseStep dt prev t t1).1
            = euler_stock prev.1 prev.2.1 EulerWeak.muW dt (EulerWeak.sqDtex * t)
        ∧ (EulerWeak.coarseStep dt prev t t1).2.1
            = euler_vol prev.2.1 prev.2.2 EulerWeak.pW dt (EulerWeak.sqDtex * t1))
    ∧ EulerWeak.eweaknorm R R1 j
        = |Finset.sum (Finset.range EulerWeak.nsample)
              (fun rep => EulerWeak.coarseTerm (R rep) (R1 rep) j)
              / (EulerWeak.nsample : ℚ)
            - Finset.sum (Finset.range EulerWeak.nsample)
              (fun rep => EulerWeak.fineTerm (R rep) (R1 rep))
              / (EulerWeak.nsample : ℚ)| := by
  have hj : j = 1 ∨ j = 2 ∨ j = 3 ∨ j = 4 := by omega
  refine ⟨?_, ?_, ?_, ?_, ?_, ?_⟩
  · rcases hj with rfl | rfl | rfl | rfl <;>
      norm_num [EulerWeak.timestep, EulerWeak.kfac, EulerWeak.dtex]
  · rcases hj with rfl | rfl | rfl | rfl <;>
      norm_num [EulerWeak.tIdx, EulerWeak.kfac]
  · intro i hi
    rw [EulerWeak.coarseTmp_group r (EulerWeak.kfac j) i hi, Finset.mul_sum]
  · intro n
    rfl
  · intro dt prev t t1
    exact ⟨rfl, rfl⟩
  · rfl

theorem C3_witness :
    EulerWeak.timestep 1 = (EulerWeak.kfac 1 : ℚ) * EulerWeak.dtex
    ∧ EulerWeak.kfac 1 * EulerWeak.tIdx 1 = 32000
    ∧ EulerWeak.sqDtex * EulerWeak.coarseTmp rZero (EulerWeak.kfac 1) 2
        = Finset.sum
            (Finset.Icc (EulerWeak.kfac 1 * 2 - EulerWeak.kfac 1 + 1)
              (EulerWeak.kfac 1 * 2))
            (fun mi => EulerWeak.sqDtex * rZero mi)
    ∧ EulerWeak.eweaknorm RZero RZero 1
        = |Finset.sum (Finset.range EulerWeak.nsample)
              (fun rep => EulerWeak.coarseTerm (RZero rep) (RZero rep) 1)
              / (EulerWeak.nsample : ℚ)
            - Finset.sum (Finset.range EulerWeak.nsample)
              (fun rep => EulerWeak.fineTerm (RZero rep) (RZero rep))
              / (EulerWeak.nsample : ℚ)| :=
  ⟨(C3_thm RZero RZero rZero rZero 1 (by decide) (by decide)).1,
   (C3_thm RZero RZero rZero rZero 1 (by decide) (by decide)).2.1,
   (C3_thm RZero RZero rZero rZero 1 (by decide) (by decide)).2.2.1 2 (by decide),
   (C3_thm RZero RZero rZero rZero 1 (by decide) (by decide)).2.2.2.2.2⟩

/-- Claim C10 (confirmed): the aggregated Wiener increment of coarse step i
(for i >= 2) equals sqrt(fine_dt) times the sum of the fine normal draws at
indices k*i-k+1 .. k*i of the same draw vector; consequently the draws at
indices 2 .. k lie below every aggregation group of every coarse step
i >= 2 and contribute to no coarse increment, although each fine step n+1
(n >= 1) is driven by draw n+1, so draws 2 .. k drive the first k-1 fine
reference steps. -/
theorem C10_thm (r r1 : ℕ → ℚ) (k : ℕ) :
    (∀ i, 2 ≤ i →
        EulerWeak.sqDtex * EulerWeak.coarseTmp r k i
          = EulerWeak.sqDtex * Finset.sum (Finset.Icc (k * i - k + 1) (k * i)) r)
    ∧ (∀ m i, 2 ≤ m → m ≤ k → 2 ≤ i →
        m ∉ Finset.Icc (k * i - k + 1) (k * i))
    ∧ (∀ n, 1 ≤ n →
        EulerWeak.fine r r1 (n + 1)
          = EulerWeak.fineStep (EulerWeak.fine r r1 n) (r (n + 1)) (r1 (n + 1))) := by
  refine ⟨?_, ?_, ?_⟩
  · intro i hi
    rw [EulerWeak.coarseTmp_group r k i (by omega)]
  · intro m i hm2 hmk hi
    exact EulerWeak.draws_excluded k m i hm2 hmk hi
  · intro n hn
    obtain ⟨n', rfl⟩ : ∃ n', n = n' + 1 := ⟨n - 1, by omega⟩
    rfl

theorem C10_witness :
    EulerWeak.sqDtex * EulerWeak.coarseTmp rZero 32 2
        = EulerWeak.sqDtex * Finset.sum (Finset.Icc (32 * 2 - 32 + 1) (32 * 2)) rZero
    ∧ (2 : ℕ) ∉ Finset.Icc (32 * 2 - 32 + 1) (32 * 2)
    ∧ EulerWeak.fine rZero rZero (1 + 1)
        = EulerWeak.fineStep (EulerWeak.fine rZero rZero 1) (rZero (1 + 1)) (rZero (1 + 1)) :=
  ⟨(C10_thm rZero rZero 32).1 2 (by decide),
   (C10_thm rZero rZero 32).2.1 2 2 (by decide) (by decide) (by decide),
   (C10_thm rZero rZero 32).2.2 1 (by decide)⟩
